import Mathlib

/-!
# Verification of the `concread` B+Tree leaf node

This file gives a shallow embedding, in Lean 4, of the leaf node of the
`concread` B+Tree (`src/collections/bptree/leaf.rs`) and proves the claims
of the specification against it.

Representation choice: the Rust `Leaf` holds two fixed arrays of
`MaybeUninit` slots of physical length `L_CAPACITY` together with a live
count; only the prefix `[0, count)` of each array ever holds initialised
data, and every operation restricts itself to that prefix.  The embedding
therefore represents each array by the list of its live prefix
(`key`/`value` model `keys[0..count)` and `values[0..count)`), keeps the
`count` field explicitly as in the source, and models a read of a slot
outside the live prefix by `Option.none` (in the source such a read is
either a bounds-check panic or an uninitialised read).
-/

namespace Concread

/-- Modelled from the spec: the constant `L_CAPACITY` from the missing
`constants` module.  The spec fixes the leaf capacity as a small constant
chosen by the tree configuration; its concrete scenario (§8) and the
leaf's own tests use capacity 10. -/
def L_CAPACITY : Nat := 10

/-- Modelled from the spec: the constant `L_MAX_IDX` from the missing
`constants` module: the index of the last slot of a full leaf. -/
def L_MAX_IDX : Nat := L_CAPACITY - 1

/-- Modelled from the spec: the insert outcome protocol
`InsertOutcome = Ok(previous value, optional) | Split(overflow key, overflow value)`
from the missing `states` module (`BLInsertState`). -/
inductive BLInsertState (K V : Type) where
  | Ok : Option V → BLInsertState K V
  | Split : K → V → BLInsertState K V
  deriving DecidableEq

/-- Modelled from the spec: the remove outcome protocol
`RemoveOutcome = Ok(removed value, optional) | Shrink(removed value, optional)`
from the missing `states` module (`BLRemoveState`). -/
inductive BLRemoveState (V : Type) where
  | Ok : Option V → BLRemoveState V
  | Shrink : Option V → BLRemoveState V
  deriving DecidableEq

/-- Modelled from the spec: `slice_insert` from the missing `utils` module —
"moves elements at `[index, count)` one position toward the tail, then places
`value` at `index`".  On the live-prefix list this is insertion at `index`. -/
def slice_insert {α : Type} (l : List α) (v : α) (idx : Nat) : List α :=
  l.insertIdx idx v

/-- Modelled from the spec: `slice_remove` from the missing `utils` module —
"returns the element at `index`, having shifted `[index+1, count)` one
position toward the head to close the gap".  On the live-prefix list this is
removal at `index`; the removed element is `none` when the slot is not live. -/
def slice_remove {α : Type} (l : List α) (idx : Nat) : Option α × List α :=
  (l[idx]?, l.eraseIdx idx)

/-- Result type of Rust `slice::binary_search`: `Ok idx` (key found at `idx`)
or `Err idx` (`idx` is the sorted insertion point). -/
inductive BinarySearchResult where
  | Ok : Nat → BinarySearchResult
  | Err : Nat → BinarySearchResult
  deriving DecidableEq

/-- The two-pointer loop of Rust `slice::binary_search` (libcore
`binary_search_by`), embedded over a list: at each step it probes
`mid = left + (right - left) / 2`, narrowing `[left, right)` until the key is
found or the window is empty.  A probe outside the list (impossible while
`right ≤ l.length`) answers `Err left`. -/
def bsLoop {K : Type} [LinearOrder K] (l : List K) (k : K) (left right : Nat) :
    BinarySearchResult :=
  if left < right then
    match l[left + (right - left) / 2]? with
    | none => .Err left
    | some x =>
      if x < k then bsLoop l k (left + (right - left) / 2 + 1) right
      else if k < x then bsLoop l k left (left + (right - left) / 2)
      else .Ok (left + (right - left) / 2)
  else .Err left
termination_by right - left
decreasing_by
  · omega
  · omega

/-- Rust `slice::binary_search(&k)` over the whole list. -/
def binarySearch {K : Type} [LinearOrder K] (l : List K) (k : K) :
    BinarySearchResult :=
  bsLoop l k 0 l.length

/-- The leaf node (`Leaf<K, V>` of `leaf.rs`): a live count together with the
live prefixes `keys[0..count)` and `values[0..count)` of its two
fixed-capacity slot arrays. -/
structure Leaf (K V : Type) where
  count : Nat
  key : List K
  value : List V
  deriving DecidableEq

namespace Leaf

variable {K V : Type} [LinearOrder K]

/-- `Leaf::new`: empty leaf, no live slot. -/
def new : Leaf K V := ⟨0, [], []⟩

/-- `Leaf::insert_or_update`.  Binary-searches `keys[0..count)`; on `Ok idx`
replaces `values[idx]` (returning the previous value); on `Err idx` either
inserts with a shift (below capacity), rejects the pair (full, `idx ≥ count`),
or evicts the maximum pair at `L_MAX_IDX` and shift-inserts at `idx`
(full, `idx < count`).  Returns the new leaf value together with the
`BLInsertState` outcome. -/
def insert_or_update (l : Leaf K V) (k : K) (v : V) :
    Leaf K V × BLInsertState K V :=
  match binarySearch (l.key.take l.count) k with
  | .Ok idx =>
      ({ l with value := l.value.set idx v }, .Ok (l.value[idx]?))
  | .Err idx =>
      if l.count = L_CAPACITY then
        if idx ≥ l.count then
          (l, .Split k v)
        else
          let (pk, key1) := slice_remove l.key L_MAX_IDX
          let (pv, value1) := slice_remove l.value L_MAX_IDX
          match pk, pv with
          | some pk, some pv =>
              ({ l with
                  key := slice_insert key1 k idx
                  value := slice_insert value1 v idx },
               .Split pk pv)
          | _, _ =>
              -- dead slot read: unreachable under the structural invariant
              -- (undefined behaviour in the source)
              (l, .Ok none)
      else
        ({ count := l.count + 1
           key := slice_insert l.key k idx
           value := slice_insert l.value v idx },
         .Ok none)

/-- `Leaf::get_idx`: linear scan of `keys[0..count)` for the first index
holding `k`. -/
def get_idx (l : Leaf K V) (k : K) : Option Nat :=
  (l.key.take l.count).findIdx? (fun x => x = k)

/-- `Leaf::get_ref`: scan lookup of the value associated with `k`
(`none` also models the source's dead-slot read, unreachable under the
structural invariant). -/
def get_ref (l : Leaf K V) (k : K) : Option V :=
  (l.get_idx k).bind (fun idx => l.value[idx]?)

/-- `Leaf::remove`: empty leaf answers `Shrink(None)`; an absent key answers
`Ok(None)`; a present key is shift-removed from both arrays, the count
drops by one, and the removed value is reported as `Shrink` exactly when the
leaf became empty. -/
def remove (l : Leaf K V) (k : K) : Leaf K V × BLRemoveState V :=
  if l.count = 0 then
    (l, .Shrink none)
  else
    match l.get_idx k with
    | none => (l, .Ok none)
    | some idx =>
        let (_pk, key1) := slice_remove l.key idx
        let (pv, value1) := slice_remove l.value idx
        let ncount := l.count - 1
        if ncount = 0 then
          (⟨ncount, key1, value1⟩, .Shrink pv)
        else
          (⟨ncount, key1, value1⟩, .Ok pv)

/-- `Leaf::max_idx`: index of the last live slot (`count - 1`). -/
def max_idx (l : Leaf K V) : Nat := l.count - 1

/-- `Leaf::min`: reads slot `0`.  The source performs this read with no
emptiness check; on an empty leaf slot `0` is not live (`none` here,
an uninitialised read in the source). -/
def min (l : Leaf K V) : Option K := l.key[0]?

/-- `Leaf::max`: reads slot `max_idx = count - 1`.  On an empty leaf the
slot is not live (`none` here; in the source, a debug assertion or an
out-of-bounds panic). -/
def max (l : Leaf K V) : Option K := l.key[l.max_idx]?

/-- `Leaf::get_kv_idx_checked`: bounds-checked positional access to the
live prefix. -/
def get_kv_idx_checked (l : Leaf K V) (idx : Nat) : Option (K × V) :=
  if idx < l.count then
    match l.key[idx]?, l.value[idx]? with
    | some k, some v => some (k, v)
    | _, _ => none   -- dead slot read: unreachable under the invariant
  else
    none

/-- `Leaf::len`. -/
def len (l : Leaf K V) : Nat := l.count

/-- `Leaf::tree_density`. -/
def tree_density (l : Leaf K V) : Nat × Nat := (l.count, L_CAPACITY)

/-- `Clone for Leaf`: copies slots `0..count` of both arrays into fresh
storage and the same count (`clone` on the elements is the identity in the
pure embedding). -/
def clone (l : Leaf K V) : Leaf K V :=
  ⟨l.count, l.key.take l.count, l.value.take l.count⟩

/-- The structural invariant of a leaf (spec §3): the count is bounded by the
capacity, each array has exactly `count` live slots, and the live keys are
strictly ascending (hence duplicate-free), index-aligned with the values. -/
def WF (l : Leaf K V) : Prop :=
  l.count ≤ L_CAPACITY ∧ l.key.length = l.count ∧ l.value.length = l.count ∧
    l.key.Sorted (· < ·)

instance (l : Leaf K V) : Decidable l.WF := by
  unfold WF List.Sorted; infer_instance

/-- The leaves reachable from `Leaf::new` by `insert_or_update` and
`remove` calls. -/
inductive Reachable : Leaf K V → Prop where
  | new : Reachable Leaf.new
  | insert (l : Leaf K V) (k : K) (v : V) :
      Reachable l → Reachable (l.insert_or_update k v).1
  | remove (l : Leaf K V) (k : K) :
      Reachable l → Reachable (l.remove k).1

/-- A concrete full leaf (keys `1..10`, values `11..20`), used by witnesses. -/
def leafFull : Leaf Nat Nat :=
  ⟨10, [1, 2, 3, 4, 5, 6, 7, 8, 9, 10],
    [11, 12, 13, 14, 15, 16, 17, 18, 19, 20]⟩

/-- A concrete three-element leaf, used by witnesses. -/
def leafSmall : Leaf Nat Nat := ⟨3, [2, 4, 6], [12, 14, 16]⟩

end Leaf

section BinarySearchLemmas

variable {K : Type} [LinearOrder K]

/-- If the binary-search loop reports `Ok i`, slot `i` holds the key:
the loop only answers `Ok` after a three-way comparison came out equal. -/
theorem bsLoop_Ok (l : List K) (k : K) :
    ∀ left right, ∀ i, bsLoop l k left right = .Ok i → l[i]? = some k := by
  intro left right
  induction left, right using bsLoop.induct l k with
  | case1 left right hlr hnone =>
      intro i h
      rw [bsLoop.eq_def] at h
      simp only [if_pos hlr, hnone] at h
      exact BinarySearchResult.noConfusion h
  | case2 left right hlr x hx hxk ih =>
      intro i h
      rw [bsLoop.eq_def] at h
      simp only [if_pos hlr, hx, if_pos hxk] at h
      exact ih i h
  | case3 left right hlr x hx hxk hkx ih =>
      intro i h
      rw [bsLoop.eq_def] at h
      simp only [if_pos hlr, hx, if_neg hxk, if_pos hkx] at h
      exact ih i h
  | case4 left right hlr x hx hxk hkx =>
      intro i h
      rw [bsLoop.eq_def] at h
      simp only [if_pos hlr, hx, if_neg hxk, if_neg hkx, BinarySearchResult.Ok.injEq] at h
      subst h
      have : x = k := le_antisymm (not_lt.mp hkx) (not_lt.mp hxk)
      rw [hx, this]
  | case5 left right hlr =>
      intro i h
      rw [bsLoop.eq_def] at h
      simp only [if_neg hlr] at h
      exact BinarySearchResult.noConfusion h

/-- Loop invariant of the binary-search loop on a strictly sorted list:
if the window `[left, right)` brackets the key (everything to the left is
smaller, everything to the right is larger), an `Err i` answer means `i` is
the sorted insertion point of `k`. -/
theorem bsLoop_Err {l : List K} {k : K} (hs : l.Sorted (· < ·)) :
    ∀ left right, left ≤ right → right ≤ l.length →
    (∀ j (_ : j < l.length), j < left → l[j] < k) →
    (∀ j (_ : j < l.length), right ≤ j → k < l[j]) →
    ∀ i, bsLoop l k left right = .Err i →
      i ≤ l.length ∧ (∀ j (_ : j < l.length), j < i → l[j] < k) ∧
        (∀ j (_ : j < l.length), i ≤ j → k < l[j]) := by
  have hidx := List.pairwise_iff_getElem.mp hs
  intro left right
  induction left, right using bsLoop.induct l k with
  | case1 left right hlr hnone =>
      intro _ hrlen _ _ i h
      rw [List.getElem?_eq_none_iff] at hnone
      omega
  | case2 left right hlr x hx ha ih =>
      intro hlr' hrlen hlo hhi i h
      rw [bsLoop.eq_def] at h
      simp only [if_pos hlr, hx, if_pos ha] at h
      obtain ⟨hmid, hxval⟩ := List.getElem?_eq_some_iff.mp hx
      refine ih (by omega) hrlen ?_ hhi i h
      intro j hj hjlt
      rcases lt_trichotomy j (left + (right - left) / 2) with hc | hc | hc
      · rcases Nat.lt_or_ge j left with hjl | hjl
        · exact hlo j hj hjl
        · exact lt_trans (hidx j _ hj hmid hc) (hxval ▸ ha)
      · subst hc; exact hxval ▸ ha
      · omega
  | case3 left right hlr x hx ha hb ih =>
      intro hlr' hrlen hlo hhi i h
      rw [bsLoop.eq_def] at h
      simp only [if_pos hlr, hx, if_neg ha, if_pos hb] at h
      obtain ⟨hmid, hxval⟩ := List.getElem?_eq_some_iff.mp hx
      refine ih (by omega) (by omega) hlo ?_ i h
      intro j hj hjge
      rcases Nat.lt_or_ge j right with hjr | hjr
      · rcases Nat.eq_or_lt_of_le hjge with hc | hc
        · exact hc ▸ (hxval ▸ hb)
        · exact lt_trans (hxval ▸ hb) (hidx _ j hmid hj hc)
      · exact hhi j hj hjr
  | case4 left right hlr x hx ha hb =>
      intro _ _ _ _ i h
      rw [bsLoop.eq_def] at h
      simp only [if_pos hlr, hx, if_neg ha, if_neg hb] at h
      exact BinarySearchResult.noConfusion h
  | case5 left right hlr =>
      intro hlr' hrlen hlo hhi i h
      rw [bsLoop.eq_def] at h
      simp only [if_neg hlr, BinarySearchResult.Err.injEq] at h
      subst h
      refine ⟨by omega, hlo, ?_⟩
      intro j hj hjge
      exact hhi j hj (by omega)

/-- `binary_search` soundness for `Ok`: the reported index holds the key. -/
theorem binarySearch_Ok {l : List K} {k : K} {i : Nat}
    (h : binarySearch l k = .Ok i) : l[i]? = some k :=
  bsLoop_Ok l k 0 l.length i h

/-- `binary_search` soundness for `Err` on a strictly sorted list: the
reported index is the sorted insertion point (everything before it is
smaller than the key, everything from it on is larger). -/
theorem binarySearch_Err {l : List K} {k : K} {i : Nat}
    (hs : l.Sorted (· < ·)) (h : binarySearch l k = .Err i) :
    i ≤ l.length ∧ (∀ j (_ : j < l.length), j < i → l[j] < k) ∧
      (∀ j (_ : j < l.length), i ≤ j → k < l[j]) := by
  refine bsLoop_Err hs 0 l.length (by omega) le_rfl ?_ ?_ i h
  · intro j hj hjlt; omega
  · intro j hj hjge; omega

/-- On a sorted list, an `Err` answer means the key is absent. -/
theorem binarySearch_Err_not_mem {l : List K} {k : K} {i : Nat}
    (hs : l.Sorted (· < ·)) (h : binarySearch l k = .Err i) : k ∉ l := by
  obtain ⟨hlen, hlo, hhi⟩ := binarySearch_Err hs h
  intro hm
  obtain ⟨j, hj, hjv⟩ := List.mem_iff_getElem.mp hm
  rcases Nat.lt_or_ge j i with hc | hc
  · exact absurd (hjv ▸ hlo j hj hc) (lt_irrefl k)
  · exact absurd (hjv ▸ hhi j hj hc) (lt_irrefl k)

/-- On a sorted list, a present key is found by `binary_search`. -/
theorem binarySearch_mem_Ok {l : List K} {k : K}
    (hs : l.Sorted (· < ·)) (hm : k ∈ l) :
    ∃ i, binarySearch l k = .Ok i := by
  cases hbs : binarySearch l k with
  | Ok i => exact ⟨i, rfl⟩
  | Err i => exact absurd hm (binarySearch_Err_not_mem hs hbs)

/-- On a sorted list all of whose keys are below `k`, `binary_search`
answers `Err length`: the insertion point is past the end. -/
theorem binarySearch_all_lt {l : List K} {k : K}
    (hs : l.Sorted (· < ·)) (hall : ∀ x ∈ l, x < k) :
    binarySearch l k = .Err l.length := by
  cases hbs : binarySearch l k with
  | Ok i =>
      have hk := binarySearch_Ok hbs
      obtain ⟨hi, hv⟩ := List.getElem?_eq_some_iff.mp hk
      have := hall _ (hv ▸ List.getElem_mem hi)
      exact absurd this (lt_irrefl k)
  | Err i =>
      obtain ⟨hlen, _, hhi⟩ := binarySearch_Err hs hbs
      rcases Nat.eq_or_lt_of_le hlen with hc | hc
      · exact hc ▸ rfl
      · exact absurd (lt_trans (hhi i hc le_rfl) (hall _ (List.getElem_mem hc)))
          (lt_irrefl k)

end BinarySearchLemmas

section ListHelpers

variable {K : Type} [LinearOrder K]

/-- Inserting `k` at its sorted insertion point (everything before is
smaller, everything from it on is larger) keeps a strictly sorted list
strictly sorted. -/
theorem sorted_insertIdx (k : K) :
    ∀ (l : List K) (i : Nat), l.Sorted (· < ·) → i ≤ l.length →
    (∀ j (_ : j < l.length), j < i → l[j] < k) →
    (∀ j (_ : j < l.length), i ≤ j → k < l[j]) →
    (l.insertIdx i k).Sorted (· < ·) := by
  intro l
  induction l with
  | nil =>
      intro i _ hi _ _
      have : i = 0 := by simpa using hi
      subst this
      simp
  | cons x xs ih =>
      intro i hs hi hlo hhi
      cases i with
      | zero =>
          simp only [List.insertIdx_zero]
          rw [List.sorted_cons]
          refine ⟨?_, hs⟩
          intro b hb
          obtain ⟨j, hj, rfl⟩ := List.mem_iff_getElem.mp hb
          exact hhi j hj (Nat.zero_le j)
      | succ n =>
          simp only [List.insertIdx_succ_cons]
          rw [List.sorted_cons]
          have hs' := List.sorted_cons.mp hs
          have hn : n ≤ xs.length := by
            simp only [List.length_cons] at hi; omega
          refine ⟨?_, ih n hs'.2 hn ?_ ?_⟩
          · intro b hb
            rw [List.mem_insertIdx hn] at hb
            rcases hb with rfl | hb
            · exact hlo 0 (by simp) (Nat.succ_pos n)
            · exact hs'.1 b hb
          · intro j hj hjn
            have := hlo (j + 1) (by simp only [List.length_cons]; omega)
              (Nat.succ_lt_succ hjn)
            simpa using this
          · intro j hj hjn
            have := hhi (j + 1) (by simp only [List.length_cons]; omega)
              (Nat.succ_le_succ hjn)
            simpa using this

/-- In a strictly sorted list, an element determines its index. -/
theorem sorted_getElem_inj {l : List K} (hs : l.Sorted (· < ·)) {i j : Nat}
    (hi : i < l.length) (hj : j < l.length) (h : l[i] = l[j]) : i = j := by
  have hidx := List.pairwise_iff_getElem.mp hs
  rcases lt_trichotomy i j with hc | hc | hc
  · exact absurd (h ▸ hidx i j hi hj hc) (lt_irrefl _)
  · exact hc
  · exact absurd (h ▸ hidx j i hj hi hc) (lt_irrefl _)

/-- The head-to-tail scan `findIdx? (· = k)` finds the (unique) index of `k`
in a strictly sorted list. -/
theorem findIdx_of_sorted_getElem {l : List K} {k : K} {i : Nat}
    (hs : l.Sorted (· < ·)) (hi : i < l.length) (hv : l[i] = k) :
    l.findIdx? (fun x => x = k) = some i := by
  rw [List.findIdx?_eq_some_iff_getElem]
  refine ⟨hi, by simp [hv], ?_⟩
  intro j hj
  have := List.pairwise_iff_getElem.mp hs j i (lt_trans hj hi) hi hj
  simp only [decide_eq_true_eq]
  intro hc
  rw [hc, hv] at this
  exact absurd this (lt_irrefl k)

/-- What a successful scan `findIdx? (· = k)` reports: an in-range index
holding `k`. -/
theorem findIdx_some_elim {l : List K} {k : K} {i : Nat}
    (h : l.findIdx? (fun x => x = k) = some i) :
    ∃ hi : i < l.length, l[i] = k := by
  rw [List.findIdx?_eq_some_iff_getElem] at h
  obtain ⟨hi, hp, _⟩ := h
  exact ⟨hi, by simpa using hp⟩

/-- The scan `findIdx? (· = k)` fails exactly when `k` is absent. -/
theorem findIdx_none_iff {l : List K} {k : K} :
    l.findIdx? (fun x => x = k) = none ↔ k ∉ l := by
  rw [List.findIdx?_eq_none_iff]
  constructor
  · intro h hm
    simpa using h k hm
  · intro h x hx
    simp only [decide_eq_false_iff_not]
    rintro rfl
    exact h hx

/-- Erasing the last live slot of a list is `dropLast`. -/
theorem eraseIdx_last_eq_dropLast {α : Type} (l : List α) :
    l.eraseIdx (l.length - 1) = l.dropLast := by
  rw [List.eraseIdx_eq_take_drop_succ, List.dropLast_eq_take]
  rcases Nat.eq_zero_or_pos l.length with hc | hc
  · rw [List.eq_nil_of_length_eq_zero hc]; simp
  · have : l.length - 1 + 1 = l.length := by omega
    rw [this, List.drop_length, List.append_nil]

end ListHelpers

namespace Leaf

variable {K V : Type} [LinearOrder K]

theorem WF.count_le {l : Leaf K V} (h : l.WF) : l.count ≤ L_CAPACITY := h.1

theorem WF.key_length {l : Leaf K V} (h : l.WF) : l.key.length = l.count := h.2.1

theorem WF.value_length {l : Leaf K V} (h : l.WF) : l.value.length = l.count :=
  h.2.2.1

theorem WF.sorted {l : Leaf K V} (h : l.WF) : l.key.Sorted (· < ·) := h.2.2.2

/-- Under the invariant the live prefix of the key array is the whole
modelled list. -/
theorem WF.take_key {l : Leaf K V} (h : l.WF) : l.key.take l.count = l.key := by
  rw [← h.key_length]
  exact List.take_length l.key

/-- Characterisation of the update branch of `insert_or_update`: when the
key is already present (necessarily at a unique index `i`), the value slot
`i` is overwritten and the previous value is returned; keys and count are
untouched. -/
theorem insert_found {l : Leaf K V} {k : K} (v : V) {i : Nat}
    (hwf : l.WF) (hi : i < l.key.length) (hv : l.key[i] = k) :
    l.insert_or_update k v =
      ({ l with value := l.value.set i v }, .Ok (l.value[i]?)) := by
  obtain ⟨j, hbs⟩ := binarySearch_mem_Ok hwf.sorted
    (hv ▸ List.getElem_mem hi)
  obtain ⟨hj, hjv⟩ := List.getElem?_eq_some_iff.mp (binarySearch_Ok hbs)
  have : j = i := sorted_getElem_inj hwf.sorted hj hi (hjv.trans hv.symm)
  subst this
  simp only [insert_or_update, hwf.take_key, hbs]

/-- Characterisation of the reject branch of `insert_or_update`: a full
leaf whose keys are all below `k` hands the pair straight back as
`Split(k, v)` and is left unchanged. -/
theorem insert_full_above {l : Leaf K V} {k : K} (v : V)
    (hwf : l.WF) (hfull : l.count = L_CAPACITY)
    (hall : ∀ x ∈ l.key, x < k) :
    l.insert_or_update k v = (l, .Split k v) := by
  have hbs := binarySearch_all_lt hwf.sorted hall
  have hge : l.key.length ≥ l.count := le_of_eq hwf.key_length.symm
  simp only [insert_or_update, hwf.take_key, hbs, if_pos hfull, ge_iff_le]
  rw [if_pos (hwf.key_length ▸ le_refl l.count)]

/-- Characterisation of the eviction branch of `insert_or_update`: a full
leaf receiving an absent key whose insertion point is inside the live range
evicts the pair at `L_MAX_IDX` and shift-inserts the new pair at the
insertion point; the count is untouched. -/
theorem insert_full_within {l : Leaf K V} {k : K} (v : V) {idx : Nat}
    (hwf : l.WF) (hfull : l.count = L_CAPACITY)
    (hbs : binarySearch l.key k = .Err idx) (hidx : idx < l.count) :
    ∃ pk pv, l.key[L_MAX_IDX]? = some pk ∧ l.value[L_MAX_IDX]? = some pv ∧
      l.insert_or_update k v =
        ({ l with
            key := (l.key.eraseIdx L_MAX_IDX).insertIdx idx k
            value := (l.value.eraseIdx L_MAX_IDX).insertIdx idx v },
         .Split pk pv) := by
  have hklen : l.key.length = L_CAPACITY := hwf.key_length.trans hfull
  have hvlen : l.value.length = L_CAPACITY := hwf.value_length.trans hfull
  have hkm : L_MAX_IDX < l.key.length := by
    rw [hklen]; simp [L_MAX_IDX, L_CAPACITY]
  have hvm : L_MAX_IDX < l.value.length := by
    rw [hvlen]; simp [L_MAX_IDX, L_CAPACITY]
  refine ⟨l.key[L_MAX_IDX], l.value[L_MAX_IDX],
    List.getElem?_eq_getElem hkm, List.getElem?_eq_getElem hvm, ?_⟩
  simp only [insert_or_update, hwf.take_key, hbs, if_pos hfull, ge_iff_le,
    if_neg (by omega : ¬ l.count ≤ idx), slice_remove, slice_insert,
    List.getElem?_eq_getElem hkm, List.getElem?_eq_getElem hvm]

/-- Characterisation of the plain-insert branch of `insert_or_update`: a
leaf with spare capacity receiving an absent key shift-inserts the pair at
the insertion point in both arrays and bumps the count. -/
theorem insert_not_full {l : Leaf K V} {k : K} (v : V) {idx : Nat}
    (hwf : l.WF) (hnf : l.count ≠ L_CAPACITY)
    (hbs : binarySearch l.key k = .Err idx) :
    l.insert_or_update k v =
      (⟨l.count + 1, l.key.insertIdx idx k, l.value.insertIdx idx v⟩,
       .Ok none) := by
  simp only [insert_or_update, hwf.take_key, hbs, if_neg hnf, slice_insert]

/-- Characterisation of `remove` on a present key (necessarily at a unique
index `i`): both arrays are shift-removed at `i`, the count drops by one,
and the removed value is reported as `Shrink` exactly when the leaf became
empty. -/
theorem remove_found {l : Leaf K V} {k : K} {i : Nat}
    (hwf : l.WF) (hi : i < l.key.length) (hv : l.key[i] = k) :
    ∃ pv, l.value[i]? = some pv ∧
      l.remove k = (⟨l.count - 1, l.key.eraseIdx i, l.value.eraseIdx i⟩,
        if l.count - 1 = 0 then .Shrink (some pv) else .Ok (some pv)) := by
  have hiv : i < l.value.length := by
    rw [hwf.value_length, ← hwf.key_length]; exact hi
  have hcount : l.count ≠ 0 := by
    rw [← hwf.key_length] at *; omega
  have hidx : l.get_idx k = some i := by
    rw [get_idx, hwf.take_key]
    exact findIdx_of_sorted_getElem hwf.sorted hi hv
  refine ⟨l.value[i], List.getElem?_eq_getElem hiv, ?_⟩
  simp only [remove, if_neg hcount, hidx, slice_remove,
    List.getElem?_eq_getElem hiv]
  split <;> rfl

/-- Characterisation of `remove` on an absent key in a non-empty leaf. -/
theorem remove_absent {l : Leaf K V} {k : K}
    (hwf : l.WF) (hcount : l.count ≠ 0) (habs : k ∉ l.key) :
    l.remove k = (l, .Ok none) := by
  have hidx : l.get_idx k = none := by
    rw [get_idx, hwf.take_key]
    exact findIdx_none_iff.mpr habs
  simp only [remove, if_neg hcount, hidx]

/-- Characterisation of `remove` on an empty leaf. -/
theorem remove_empty {l : Leaf K V} (k : K) (hcount : l.count = 0) :
    l.remove k = (l, .Shrink none) := by
  simp only [remove, if_pos hcount]

/-- A fresh leaf satisfies the structural invariant. -/
theorem wf_new : (Leaf.new : Leaf K V).WF := by
  unfold WF new
  refine ⟨by simp [L_CAPACITY], rfl, rfl, List.sorted_nil⟩

/-- `insert_or_update` preserves the structural invariant. -/
theorem WF.insert {l : Leaf K V} (hwf : l.WF) (k : K) (v : V) :
    (l.insert_or_update k v).1.WF := by
  cases hbs : binarySearch l.key k with
  | Ok i =>
      obtain ⟨hi, hv⟩ := List.getElem?_eq_some_iff.mp (binarySearch_Ok hbs)
      rw [insert_found v hwf hi hv]
      exact ⟨hwf.count_le, hwf.key_length,
        by simpa using hwf.value_length, hwf.sorted⟩
  | Err idx =>
      obtain ⟨hle, hlo, hhi⟩ := binarySearch_Err hwf.sorted hbs
      by_cases hfull : l.count = L_CAPACITY
      · by_cases hge : l.count ≤ idx
        · have hall : ∀ x ∈ l.key, x < k := by
            intro x hx
            obtain ⟨j, hj, rfl⟩ := List.mem_iff_getElem.mp hx
            refine hlo j hj ?_
            rw [hwf.key_length] at hj
            omega
          rw [insert_full_above v hwf hfull hall]
          exact hwf
        · push_neg at hge
          obtain ⟨pk, pv, hpk, hpv, heq⟩ := insert_full_within v hwf hfull hbs hge
          rw [heq]
          have hklen : l.key.length = L_CAPACITY := hwf.key_length.trans hfull
          have hvlen : l.value.length = L_CAPACITY := hwf.value_length.trans hfull
          have hkm : L_MAX_IDX = l.key.length - 1 := by
            rw [hklen]
            rfl
          have hvm : L_MAX_IDX = l.value.length - 1 := by
            rw [hvlen]
            rfl
          have hdl : l.key.eraseIdx L_MAX_IDX = l.key.dropLast := by
            rw [hkm, eraseIdx_last_eq_dropLast]
          have hdv : l.value.eraseIdx L_MAX_IDX = l.value.dropLast := by
            rw [hvm, eraseIdx_last_eq_dropLast]
          have hdllen : l.key.dropLast.length = L_CAPACITY - 1 := by
            rw [List.length_dropLast, hklen]
          have hidxle : idx ≤ l.key.dropLast.length := by
            rw [hdllen]
            have : L_CAPACITY = 10 := rfl
            omega
          unfold WF
          refine ⟨hwf.count_le, ?_, ?_, ?_⟩
          · simp only [hdl]
            rw [List.length_insertIdx _ _ hidxle, hdllen, hfull]
            have : L_CAPACITY = 10 := rfl
            omega
          · simp only [hdv]
            rw [List.length_insertIdx _ _
                (by rw [List.length_dropLast, hvlen, ← hdllen]; exact hidxle),
              List.length_dropLast, hvlen, hfull]
            have : L_CAPACITY = 10 := rfl
            omega
          · simp only [hdl]
            refine sorted_insertIdx k _ idx
              (List.Pairwise.sublist (List.dropLast_sublist l.key) hwf.sorted)
              hidxle ?_ ?_
            · intro j hj hjlt
              rw [List.getElem_dropLast]
              exact hlo j (by rw [List.length_dropLast] at hj; omega) hjlt
            · intro j hj hjge
              rw [List.getElem_dropLast]
              exact hhi j (by rw [List.length_dropLast] at hj; omega) hjge
      · rw [insert_not_full v hwf hfull hbs]
        have hidxle : idx ≤ l.key.length := hle
        unfold WF
        refine ⟨?_, ?_, ?_, ?_⟩
        · simp only
          have := hwf.count_le
          omega
        · simp only
          rw [List.length_insertIdx _ _ hidxle, hwf.key_length]
        · simp only
          rw [List.length_insertIdx _ _
              (by rw [hwf.value_length, ← hwf.key_length]; exact hidxle),
            hwf.value_length]
        · simp only
          exact sorted_insertIdx k _ idx hwf.sorted hidxle hlo hhi

/-- `remove` preserves the structural invariant. -/
theorem WF.remove {l : Leaf K V} (hwf : l.WF) (k : K) : (l.remove k).1.WF := by
  by_cases hc : l.count = 0
  · rw [remove_empty k hc]
    exact hwf
  · cases hidx : l.get_idx k with
    | none =>
        have habs : k ∉ l.key := by
          rw [get_idx, hwf.take_key] at hidx
          exact findIdx_none_iff.mp hidx
        rw [remove_absent hwf hc habs]
        exact hwf
    | some i =>
        rw [get_idx, hwf.take_key] at hidx
        obtain ⟨hi, hv⟩ := findIdx_some_elim hidx
        obtain ⟨pv, hpv, heq⟩ := remove_found hwf hi hv
        rw [heq]
        have hiv : i < l.value.length := by
          rw [hwf.value_length, ← hwf.key_length]
          exact hi
        unfold WF
        refine ⟨?_, ?_, ?_, ?_⟩
        · simp only
          have := hwf.count_le
          omega
        · simp only
          rw [List.length_eraseIdx_of_lt hi, hwf.key_length]
        · simp only
          rw [List.length_eraseIdx_of_lt hiv, hwf.value_length]
        · simp only
          exact List.Pairwise.sublist (List.eraseIdx_sublist _ _) hwf.sorted

/-- Every leaf reachable from `new` by inserts and removes satisfies the
structural invariant. -/
theorem reachable_wf {l : Leaf K V} (h : Reachable l) : l.WF := by
  induction h with
  | new => exact wf_new
  | insert l k v _ ih => exact ih.insert k v
  | remove l k _ ih => exact ih.remove k

/-- C2: on a full leaf (`count = L_CAPACITY`), inserting a key that exceeds
every existing key (hence is absent, with insertion point `≥ count`) returns
`Split(k, v)` with exactly the inserted pair, and the leaf — keys, values
and count — is unchanged. -/
theorem claim_C2_overflow_above_max (l : Leaf K V) (k : K) (v : V)
    (hwf : l.WF) (hfull : l.count = L_CAPACITY)
    (hall : ∀ x ∈ l.key, x < k) :
    l.insert_or_update k v = (l, .Split k v) :=
  insert_full_above v hwf hfull hall

theorem claim_C2_witness :
    leafFull.insert_or_update 11 99 = (leafFull, .Split 11 99) :=
  claim_C2_overflow_above_max leafFull 11 99 (by decide) (by decide) (by decide)

/-- C3: inserting a key already present at index `i` overwrites `values[i]`
with the new value, returns `Ok(Some(old value))`, leaves the count and all
keys unchanged, and a subsequent `get_ref` returns the new value. -/
theorem claim_C3_update_existing (l : Leaf K V) (k : K) (v : V) (i : Nat)
    (hwf : l.WF) (hi : i < l.key.length) (hv : l.key[i] = k) :
    ∃ oldv, l.value[i]? = some oldv ∧
      l.insert_or_update k v = ({ l with value := l.value.set i v },
        .Ok (some oldv)) ∧
      (l.insert_or_update k v).1.count = l.count ∧
      (l.insert_or_update k v).1.key = l.key ∧
      (l.insert_or_update k v).1.get_ref k = some v := by
  have hiv : i < l.value.length := by
    rw [hwf.value_length, ← hwf.key_length]
    exact hi
  have heq := insert_found v hwf hi hv
  refine ⟨l.value[i], List.getElem?_eq_getElem hiv, ?_, ?_, ?_, ?_⟩
  · rw [heq, List.getElem?_eq_getElem hiv]
  · rw [heq]
  · rw [heq]
  · rw [heq]
    have hwf' : ({ l with value := l.value.set i v } : Leaf K V).WF :=
      ⟨hwf.count_le, hwf.key_length, by simpa using hwf.value_length,
        hwf.sorted⟩
    show ({ l with value := l.value.set i v } : Leaf K V).get_ref k = some v
    rw [get_ref, get_idx, hwf'.take_key]
    show (l.key.findIdx? (fun x => x = k)).bind _ = some v
    rw [findIdx_of_sorted_getElem hwf.sorted hi hv]
    show (l.value.set i v)[i]? = some v
    exact List.getElem?_set_self hiv

theorem claim_C3_witness :
    ∃ oldv, leafFull.value[2]? = some oldv ∧
      leafFull.insert_or_update 3 99 =
        ({ leafFull with value := leafFull.value.set 2 99 }, .Ok (some oldv)) ∧
      (leafFull.insert_or_update 3 99).1.count = leafFull.count ∧
      (leafFull.insert_or_update 3 99).1.key = leafFull.key ∧
      (leafFull.insert_or_update 3 99).1.get_ref 3 = some 99 :=
  claim_C3_update_existing leafFull 3 99 2 (by decide) (by decide) (by decide)

/-- C4: inserting an absent key into a leaf with spare capacity
(`count < L_CAPACITY`) shift-inserts the key and value at the sorted
insertion point `idx` in both arrays, bumps the count by exactly one and
returns `Ok(None)` — in particular it never returns `Split`. -/
theorem claim_C4_insert_below_capacity (l : Leaf K V) (k : K) (v : V)
    (hwf : l.WF) (hlt : l.count < L_CAPACITY) (habs : k ∉ l.key) :
    ∃ idx, binarySearch l.key k = .Err idx ∧ idx ≤ l.count ∧
      (∀ j (_ : j < l.key.length), j < idx → l.key[j] < k) ∧
      (∀ j (_ : j < l.key.length), idx ≤ j → k < l.key[j]) ∧
      l.insert_or_update k v =
        (⟨l.count + 1, l.key.insertIdx idx k, l.value.insertIdx idx v⟩,
         .Ok none) := by
  cases hbs : binarySearch l.key k with
  | Ok i =>
      obtain ⟨hi, hv⟩ := List.getElem?_eq_some_iff.mp (binarySearch_Ok hbs)
      exact absurd (hv ▸ List.getElem_mem hi) habs
  | Err idx =>
      obtain ⟨hle, hlo, hhi⟩ := binarySearch_Err hwf.sorted hbs
      exact ⟨idx, rfl, hwf.key_length ▸ hle, hlo, hhi,
        insert_not_full v hwf (by omega) hbs⟩

theorem claim_C4_witness :
    ∃ idx, binarySearch leafSmall.key 5 = .Err idx ∧ idx ≤ leafSmall.count ∧
      (∀ j (_ : j < leafSmall.key.length), j < idx → leafSmall.key[j] < 5) ∧
      (∀ j (_ : j < leafSmall.key.length), idx ≤ j → 5 < leafSmall.key[j]) ∧
      leafSmall.insert_or_update 5 15 =
        (⟨leafSmall.count + 1, leafSmall.key.insertIdx idx 5,
          leafSmall.value.insertIdx idx 15⟩, .Ok none) :=
  claim_C4_insert_below_capacity leafSmall 5 15 (by decide) (by decide)
    (by decide)

/-- C6: case analysis of `remove`.  An empty leaf answers `Shrink(None)`; a
non-empty leaf without the key answers `Ok(None)`; a leaf holding the key at
index `i` shift-removes index `i` from both arrays, drops the count by one,
and answers `Shrink(Some(removed value))` exactly when the new count is `0`
and `Ok(Some(removed value))` otherwise.  The embedding is a total function:
no case is an error. -/
theorem claim_C6_remove_cases (l : Leaf K V) (k : K) (hwf : l.WF) :
    (l.count = 0 → l.remove k = (l, .Shrink none)) ∧
    (l.count ≠ 0 → k ∉ l.key → l.remove k = (l, .Ok none)) ∧
    (∀ i (hi : i < l.key.length), l.key[i] = k →
      ∃ pv, l.value[i]? = some pv ∧
        l.remove k = (⟨l.count - 1, l.key.eraseIdx i, l.value.eraseIdx i⟩,
          if l.count - 1 = 0 then .Shrink (some pv) else .Ok (some pv))) :=
  ⟨fun hc => remove_empty k hc,
   fun hc habs => remove_absent hwf hc habs,
   fun _ hi hv => remove_found hwf hi hv⟩

theorem claim_C6_witness :
    (leafSmall.count = 0 → leafSmall.remove 4 = (leafSmall, .Shrink none)) ∧
    (leafSmall.count ≠ 0 → 4 ∉ leafSmall.key →
      leafSmall.remove 4 = (leafSmall, .Ok none)) ∧
    (∀ i (hi : i < leafSmall.key.length), leafSmall.key[i] = 4 →
      ∃ pv, leafSmall.value[i]? = some pv ∧
        leafSmall.remove 4 =
          (⟨leafSmall.count - 1, leafSmall.key.eraseIdx i,
            leafSmall.value.eraseIdx i⟩,
           if leafSmall.count - 1 = 0 then .Shrink (some pv)
           else .Ok (some pv))) :=
  claim_C6_remove_cases leafSmall 4 (by decide)

/-- C9: `get_kv_idx_checked idx` answers `Some (keys[idx], values[idx])`
exactly for `idx < count` and `None` for every `idx ≥ count`; the embedding
only ever holds the live prefix, so no out-of-range slot is read. -/
theorem claim_C9_get_kv_idx_checked (l : Leaf K V) (idx : Nat) (hwf : l.WF) :
    (idx < l.count → ∃ k v, l.key[idx]? = some k ∧ l.value[idx]? = some v ∧
      l.get_kv_idx_checked idx = some (k, v)) ∧
    (l.count ≤ idx → l.get_kv_idx_checked idx = none) := by
  constructor
  · intro hidx
    have hik : idx < l.key.length := by rw [hwf.key_length]; exact hidx
    have hiv : idx < l.value.length := by rw [hwf.value_length]; exact hidx
    refine ⟨l.key[idx], l.value[idx], List.getElem?_eq_getElem hik,
      List.getElem?_eq_getElem hiv, ?_⟩
    simp only [get_kv_idx_checked, if_pos hidx, List.getElem?_eq_getElem hik,
      List.getElem?_eq_getElem hiv]
  · intro hidx
    simp only [get_kv_idx_checked, if_neg (by omega : ¬ idx < l.count)]

theorem claim_C9_witness :
    (1 < leafSmall.count → ∃ k v, leafSmall.key[1]? = some k ∧
      leafSmall.value[1]? = some v ∧
      leafSmall.get_kv_idx_checked 1 = some (k, v)) ∧
    (leafSmall.count ≤ 1 → leafSmall.get_kv_idx_checked 1 = none) :=
  claim_C9_get_kv_idx_checked leafSmall 1 (by decide)

/-- C1: on a full leaf, inserting an absent key that is below some existing
key (so its insertion point is inside the live range) evicts the maximum
pair — the pair at slot `L_MAX_IDX = count - 1` — shift-inserts the new pair
at the insertion point, and returns `Split(evicted key, evicted value)`.
Afterwards the leaf holds exactly the `L_CAPACITY` smallest keys of
{old contents ∪ {k}} (all of the old keys except the evicted maximum, plus
`k`, still `L_CAPACITY` of them), the count is still `L_CAPACITY`, and the
returned key is strictly greater than every key kept. -/
theorem claim_C1_overflow_displaces_max (l : Leaf K V) (k : K) (v : V)
    (hwf : l.WF) (hfull : l.count = L_CAPACITY)
    (habs : k ∉ l.key) (hy : ∃ y ∈ l.key, k < y) :
    ∃ pk pv l',
      l.insert_or_update k v = (l', .Split pk pv) ∧
      l.key[L_MAX_IDX]? = some pk ∧ l.value[L_MAX_IDX]? = some pv ∧
      l'.count = L_CAPACITY ∧ l'.key.length = L_CAPACITY ∧
      (∀ x, x ∈ l'.key ↔ (x = k ∨ (x ∈ l.key ∧ x ≠ pk))) ∧
      (∀ x ∈ l'.key, x < pk) := by
  have hklen : l.key.length = L_CAPACITY := hwf.key_length.trans hfull
  have hmx : L_MAX_IDX = L_CAPACITY - 1 := rfl
  have hcap : 0 < L_CAPACITY := by decide
  cases hbs : binarySearch l.key k with
  | Ok i =>
      obtain ⟨hi, hv⟩ := List.getElem?_eq_some_iff.mp (binarySearch_Ok hbs)
      exact absurd (hv ▸ List.getElem_mem hi) habs
  | Err idx =>
      obtain ⟨hle, hlo, hhi⟩ := binarySearch_Err hwf.sorted hbs
      obtain ⟨y, hym, hky⟩ := hy
      obtain ⟨jy, hjy, rfl⟩ := List.mem_iff_getElem.mp hym
      have hidx : idx < l.count := by
        by_contra hc
        push_neg at hc
        have hjylt : jy < idx := by
          rw [hwf.key_length] at hjy
          omega
        exact absurd (hlo jy hjy hjylt) (lt_asymm hky)
      obtain ⟨pk, pv, hpk, hpv, heq⟩ := insert_full_within v hwf hfull hbs hidx
      obtain ⟨h9, hpk9⟩ := List.getElem?_eq_some_iff.mp hpk
      have hpair := List.pairwise_iff_getElem.mp hwf.sorted
      have hdl : l.key.eraseIdx L_MAX_IDX = l.key.dropLast := by
        have h1 : L_MAX_IDX = l.key.length - 1 := by rw [hklen]; exact hmx
        rw [h1, eraseIdx_last_eq_dropLast]
      have hdllen : l.key.dropLast.length = L_CAPACITY - 1 := by
        rw [List.length_dropLast, hklen]
      have hidxle : idx ≤ l.key.dropLast.length := by
        rw [hdllen]
        omega
      have hdl_lt : ∀ x ∈ l.key.dropLast, x < pk := by
        intro x hx
        obtain ⟨j, hj, rfl⟩ := List.mem_iff_getElem.mp hx
        have hjk : j < l.key.length := by
          rw [List.length_dropLast] at hj
          omega
        have hjm : j < L_MAX_IDX := by
          rw [hdllen] at hj
          omega
        rw [List.getElem_dropLast]
        exact hpk9 ▸ hpair j L_MAX_IDX hjk h9 hjm
      have hk_lt : k < pk := by
        have hylt : l.key[jy] ≤ pk := by
          rcases Nat.lt_or_ge jy L_MAX_IDX with hc | hc
          · exact le_of_lt (hpk9 ▸ hpair jy L_MAX_IDX hjy h9 hc)
          · have hj9 : jy = L_MAX_IDX := by
              rw [hklen] at hjy
              omega
            subst hj9
            exact le_of_eq hpk9
        exact lt_of_lt_of_le hky hylt
      have hdl_mem : ∀ x, x ∈ l.key.dropLast ↔ (x ∈ l.key ∧ x ≠ pk) := by
        intro x
        constructor
        · intro hx
          exact ⟨(List.dropLast_sublist _).subset hx, ne_of_lt (hdl_lt x hx)⟩
        · rintro ⟨hx, hne⟩
          obtain ⟨j, hj, rfl⟩ := List.mem_iff_getElem.mp hx
          have hjm : j < L_MAX_IDX := by
            rcases Nat.lt_or_ge j L_MAX_IDX with hc | hc
            · exact hc
            · exfalso
              have hj9 : j = L_MAX_IDX := by
                rw [hklen] at hj
                omega
              subst hj9
              exact hne hpk9
          have hjd : j < l.key.dropLast.length := by
            rw [hdllen]
            omega
          have hget := List.getElem_dropLast l.key j hjd
          exact hget ▸ List.getElem_mem hjd
      refine ⟨pk, pv, _, heq, hpk, hpv, hfull, ?_, ?_, ?_⟩
      · show ((l.key.eraseIdx L_MAX_IDX).insertIdx idx k).length = L_CAPACITY
        rw [hdl, List.length_insertIdx _ _ hidxle, hdllen]
        omega
      · intro x
        show x ∈ (l.key.eraseIdx L_MAX_IDX).insertIdx idx k ↔ _
        rw [hdl, List.mem_insertIdx hidxle]
        exact or_congr Iff.rfl (hdl_mem x)
      · intro x hx
        have hx' : x ∈ l.key.dropLast.insertIdx idx k := by
          rw [← hdl]
          exact hx
        rcases (List.mem_insertIdx hidxle).mp hx' with rfl | hxd
        · exact hk_lt
        · exact hdl_lt x hxd

theorem claim_C1_witness :
    ∃ pk pv l',
      leafFull.insert_or_update 0 0 = (l', .Split pk pv) ∧
      leafFull.key[L_MAX_IDX]? = some pk ∧
      leafFull.value[L_MAX_IDX]? = some pv ∧
      l'.count = L_CAPACITY ∧ l'.key.length = L_CAPACITY ∧
      (∀ x, x ∈ l'.key ↔ (x = 0 ∨ (x ∈ leafFull.key ∧ x ≠ pk))) ∧
      (∀ x ∈ l'.key, x < pk) :=
  claim_C1_overflow_displaces_max leafFull 0 0 (by decide) (by decide)
    (by decide) ⟨1, by decide, by decide⟩

/-- C5: every leaf reachable from `new()` by any sequence of
`insert_or_update` and `remove` calls satisfies the structural invariant
(`count ≤ L_CAPACITY`, live keys strictly ascending — hence duplicate-free —
and value slots index-aligned with key slots), and each single call to
`insert_or_update` or `remove` preserves the invariant. -/
theorem claim_C5_structural_invariant (l : Leaf K V) (k : K) (v : V) :
    (Reachable l → l.WF) ∧
    (l.WF → (l.insert_or_update k v).1.WF ∧ (l.remove k).1.WF) :=
  ⟨reachable_wf, fun h => ⟨h.insert k v, h.remove k⟩⟩

theorem claim_C5_witness :
    ((Leaf.new : Leaf Nat Nat).insert_or_update 1 1).1.WF ∧
      (leafSmall.insert_or_update 5 15).1.WF ∧ (leafSmall.remove 2).1.WF :=
  ⟨(claim_C5_structural_invariant _ 0 0).1
      (Reachable.insert Leaf.new 1 1 Reachable.new),
   ((claim_C5_structural_invariant leafSmall 5 15).2 (by decide)).1,
   ((claim_C5_structural_invariant leafSmall 2 0).2 (by decide)).2⟩

/-- C7 (code bug at the failing input `min()` on an empty leaf): in the
embedding the empty leaf has no live slot `0`, so `min` yields `none` —
there is no key the read could legitimately return.  In the source,
`min` dereferences `key[0].as_ptr()` with no emptiness check: an
uninitialised read (undefined behaviour) that silently yields a garbage
reference instead of the abort/panic the claim requires.  (`max` does fail
loudly there: `max_idx`'s `debug_assert!` in debug builds, or the
out-of-bounds index after the `count - 1` underflow in release builds; on a
non-empty leaf both return the first/last live key.) -/
theorem claim_C7_min_empty_no_panic :
    (Leaf.new : Leaf Nat Nat).count = 0 ∧
      (Leaf.new : Leaf Nat Nat).min = none ∧
      (Leaf.new : Leaf Nat Nat).max = none :=
  ⟨rfl, rfl, rfl⟩

/-- C8: `clone` copies exactly the live prefix: the clone has the same
count and, slot for slot, the same live keys and values — indeed, as a
value of the embedding, it equals the original leaf.  Mutation in the
embedding is functional (`insert_or_update`/`remove` build a new leaf
value), so mutating the clone cannot alter the original's contents or
count — the independent-storage half of the claim is inherent in the value
semantics. -/
theorem claim_C8_clone (l : Leaf K V) (hwf : l.WF) :
    l.clone.count = l.count ∧
    (∀ i, i < l.count →
      l.clone.key[i]? = l.key[i]? ∧ l.clone.value[i]? = l.value[i]?) ∧
    l.clone = l := by
  have hk : l.key.take l.count = l.key := hwf.take_key
  have hv : l.value.take l.count = l.value := by
    rw [← hwf.value_length]
    exact List.take_length l.value
  have hcl : l.clone = l := by
    unfold clone
    rw [hk, hv]
  exact ⟨by rw [hcl], fun i _ => by rw [hcl]; exact ⟨rfl, rfl⟩, hcl⟩

theorem claim_C8_witness :
    leafFull.clone.count = leafFull.count ∧
    (∀ i, i < leafFull.count →
      leafFull.clone.key[i]? = leafFull.key[i]? ∧
        leafFull.clone.value[i]? = leafFull.value[i]?) ∧
    leafFull.clone = leafFull :=
  claim_C8_clone leafFull (by decide)

/-- C10: on a leaf whose live keys are strictly ascending, the linear scan
(`get_idx`, hence `get_ref` and `remove`) and the binary search used by
`insert_or_update` agree on membership: the scan succeeds at an index
holding `k` exactly when the binary search answers `Ok` of an index holding
`k`, and the scan fails exactly when the binary search answers `Err`. -/
theorem claim_C10_scan_agrees_with_binary_search (l : Leaf K V) (k : K)
    (hwf : l.WF) :
    ((∃ i, l.get_idx k = some i ∧ l.key[i]? = some k) ↔
      (∃ j, binarySearch (l.key.take l.count) k = .Ok j ∧
        l.key[j]? = some k)) ∧
    (l.get_idx k = none ↔
      ∃ e, binarySearch (l.key.take l.count) k = .Err e) := by
  simp only [get_idx, hwf.take_key]
  constructor
  · constructor
    · rintro ⟨i, hfind, hki⟩
      obtain ⟨hi, hv⟩ := List.getElem?_eq_some_iff.mp hki
      obtain ⟨j, hbs⟩ := binarySearch_mem_Ok hwf.sorted
        (hv ▸ List.getElem_mem hi)
      exact ⟨j, hbs, binarySearch_Ok hbs⟩
    · rintro ⟨j, hbs, hkj⟩
      obtain ⟨hj, hv⟩ := List.getElem?_eq_some_iff.mp hkj
      exact ⟨j, findIdx_of_sorted_getElem hwf.sorted hj hv, hkj⟩
  · constructor
    · intro hnone
      have habs := findIdx_none_iff.mp hnone
      cases hbs : binarySearch l.key k with
      | Ok j =>
          obtain ⟨hj, hv⟩ := List.getElem?_eq_some_iff.mp (binarySearch_Ok hbs)
          exact absurd (hv ▸ List.getElem_mem hj) habs
      | Err e => exact ⟨e, rfl⟩
    · rintro ⟨e, hbs⟩
      exact findIdx_none_iff.mpr (binarySearch_Err_not_mem hwf.sorted hbs)

theorem claim_C10_witness :
    ((∃ i, leafSmall.get_idx 4 = some i ∧ leafSmall.key[i]? = some 4) ↔
      (∃ j, binarySearch (leafSmall.key.take leafSmall.count) 4 = .Ok j ∧
        leafSmall.key[j]? = some 4)) ∧
    (leafSmall.get_idx 4 = none ↔
      ∃ e, binarySearch (leafSmall.key.take leafSmall.count) 4 = .Err e) :=
  claim_C10_scan_agrees_with_binary_search leafSmall 4 (by decide)

end Leaf

end Concread
